import Mathlib

/-!
simple-statistics: `sum` (Kahan-Babuska) and `variance`.

A shallow embedding of `src/sum.js` and `src/variance.js`.

* A JavaScript Number is modelled by `JSNum`: a finite value (a rational), the two
  infinities, or NaN.  Every arithmetic operation that rounds in IEEE-754 takes the
  rounding function `rnd : ℚ → ℚ` as a parameter and returns `rnd` of the exact result;
  `rnd = id` is exact arithmetic.  Overflow to infinity and the sign of zero are not
  modelled.
* An element of the input array is a `JSValue` (a primitive value).  The input array is a
  list of elements; the namespace `Sparse` has the functions on an array with holes.
* A thrown `Error` is `Except.error` carrying the message of the `Error`.
-/

namespace SimpleStatistics

/-! ## Numbers -/

/-- A value of the JavaScript Number type. -/
inductive JSNum where
  | fin (q : ℚ)
  | posInf
  | negInf
  | nan
  deriving DecidableEq

namespace JSNum

/-- Unary minus. -/
def neg : JSNum → JSNum
  | fin a => fin (-a)
  | posInf => negInf
  | negInf => posInf
  | nan => nan

/-- The operator `a + b`. -/
def add (rnd : ℚ → ℚ) : JSNum → JSNum → JSNum
  | fin a, fin b => fin (rnd (a + b))
  | fin _, posInf => posInf
  | fin _, negInf => negInf
  | posInf, fin _ => posInf
  | posInf, posInf => posInf
  | posInf, negInf => nan
  | negInf, fin _ => negInf
  | negInf, negInf => negInf
  | negInf, posInf => nan
  | nan, _ => nan
  | _, nan => nan

/-- The operator `a - b`. -/
def sub (rnd : ℚ → ℚ) : JSNum → JSNum → JSNum
  | fin a, fin b => fin (rnd (a - b))
  | fin _, posInf => negInf
  | fin _, negInf => posInf
  | posInf, fin _ => posInf
  | posInf, negInf => posInf
  | posInf, posInf => nan
  | negInf, fin _ => negInf
  | negInf, posInf => negInf
  | negInf, negInf => nan
  | nan, _ => nan
  | _, nan => nan

/-- The function `Math.abs`. -/
def abs : JSNum → JSNum
  | fin a => fin |a|
  | posInf => posInf
  | negInf => posInf
  | nan => nan

/-- The comparison `a >= b` (false as soon as an operand is NaN). -/
def ge : JSNum → JSNum → Bool
  | fin a, fin b => decide (b ≤ a)
  | fin _, posInf => false
  | fin _, negInf => true
  | posInf, fin _ => true
  | posInf, posInf => true
  | posInf, negInf => true
  | negInf, fin _ => false
  | negInf, posInf => false
  | negInf, negInf => true
  | nan, _ => false
  | _, nan => false

/-- The operator `a * b`. -/
def mul (rnd : ℚ → ℚ) : JSNum → JSNum → JSNum
  | fin a, fin b => fin (rnd (a * b))
  | fin a, posInf => if a = 0 then nan else if 0 < a then posInf else negInf
  | fin a, negInf => if a = 0 then nan else if 0 < a then negInf else posInf
  | posInf, fin b => if b = 0 then nan else if 0 < b then posInf else negInf
  | negInf, fin b => if b = 0 then nan else if 0 < b then negInf else posInf
  | posInf, posInf => posInf
  | posInf, negInf => negInf
  | negInf, posInf => negInf
  | negInf, negInf => posInf
  | nan, _ => nan
  | _, nan => nan

/-- The operator `a / b` (a zero divisor is the positive zero). -/
def div (rnd : ℚ → ℚ) : JSNum → JSNum → JSNum
  | fin a, fin b =>
    if b = 0 then (if a = 0 then nan else if 0 < a then posInf else negInf)
    else fin (rnd (a / b))
  | fin _, posInf => fin 0
  | fin _, negInf => fin 0
  | posInf, fin b => if 0 ≤ b then posInf else negInf
  | negInf, fin b => if 0 ≤ b then negInf else posInf
  | posInf, posInf => nan
  | posInf, negInf => nan
  | negInf, posInf => nan
  | negInf, negInf => nan
  | nan, _ => nan
  | _, nan => nan

/-- The power `a ** n` for a natural exponent, as repeated multiplication. -/
def pow (rnd : ℚ → ℚ) (a : JSNum) : Nat → JSNum
  | 0 => fin 1
  | 1 => a
  | n + 2 => mul rnd (pow rnd a (n + 1)) a

/-- The predicate `Number.isNaN`. -/
def isNaN : JSNum → Bool
  | nan => true
  | _ => false

end JSNum

/-! ## Values and coercion -/

/-- A primitive JavaScript value, as found in the input array. -/
inductive JSValue where
  | number (n : JSNum)
  | string (s : String)
  | boolean (b : Bool)
  | undefined
  | null
  deriving DecidableEq

/-- The operator `typeof`. -/
def typeof : JSValue → String
  | .number _ => "number"
  | .string _ => "string"
  | .boolean _ => "boolean"
  | .undefined => "undefined"
  | .null => "object"

/-- White space and line terminators skipped at the start of the argument of `parseFloat`. -/
def isStrWhiteSpaceChar (c : Char) : Bool :=
  c.toNat ∈ [0x09, 0x0A, 0x0B, 0x0C, 0x0D, 0x20, 0xA0, 0x1680, 0x2000, 0x2001, 0x2002,
    0x2003, 0x2004, 0x2005, 0x2006, 0x2007, 0x2008, 0x2009, 0x200A, 0x2028, 0x2029,
    0x202F, 0x205F, 0x3000, 0xFEFF]

/-- The number written by a run of decimal digits. -/
def digitsValue (ds : List Char) : Nat :=
  ds.foldl (fun acc c => 10 * acc + (c.toNat - 48)) 0

/-- The digits of a run of decimal digits, or `none` when the run is empty. -/
def exponentDigits (cs : List Char) : Option Nat :=
  if cs.takeWhile Char.isDigit = [] then none else some (digitsValue (cs.takeWhile Char.isDigit))

/-- The value of the `ExponentPart` that starts `cs`; `0` when no well-formed exponent part
starts there (the literal then ends before it). -/
def parseExponent : List Char → Int
  | [] => 0
  | c :: rest =>
    if c = 'e' ∨ c = 'E' then
      match rest with
      | '+' :: r => match exponentDigits r with
        | some n => (n : Int)
        | none => 0
      | '-' :: r => match exponentDigits r with
        | some n => -(n : Int)
        | none => 0
      | r => match exponentDigits r with
        | some n => (n : Int)
        | none => 0
    else 0

/-- The longest `StrUnsignedDecimalLiteral` that starts `cs`, as a number; NaN when there is
none. -/
def parseUnsignedDecimal (rnd : ℚ → ℚ) (cs : List Char) : JSNum :=
  match cs with
  | 'I' :: 'n' :: 'f' :: 'i' :: 'n' :: 'i' :: 't' :: 'y' :: _ => .posInf
  | _ =>
    let intDigits := cs.takeWhile Char.isDigit
    match cs.dropWhile Char.isDigit with
    | '.' :: r =>
      let fracDigits := r.takeWhile Char.isDigit
      if intDigits = [] ∧ fracDigits = [] then .nan
      else .fin (rnd ((digitsValue (intDigits ++ fracDigits) : ℚ) *
        (10 : ℚ) ^ (parseExponent (r.dropWhile Char.isDigit) - (fracDigits.length : Int))))
    | r =>
      if intDigits = [] then .nan
      else .fin (rnd ((digitsValue intDigits : ℚ) * (10 : ℚ) ^ parseExponent r))

/-- The longest `StrDecimalLiteral` that starts `cs`, as a number; NaN when there is none. -/
def parseDecimal (rnd : ℚ → ℚ) : List Char → JSNum
  | '+' :: r => parseUnsignedDecimal rnd r
  | '-' :: r => (parseUnsignedDecimal rnd r).neg
  | r => parseUnsignedDecimal rnd r

/-- The function `Number.parseFloat` on a string. -/
def parseFloatString (rnd : ℚ → ℚ) (s : String) : JSNum :=
  parseDecimal rnd (s.data.dropWhile isStrWhiteSpaceChar)

/-- The function `Number.parseFloat`: the argument is converted to a string and the longest
decimal literal at its start is read.  The string of a Number reads back as that Number. -/
def parseFloat (rnd : ℚ → ℚ) : JSValue → JSNum
  | .number n => n
  | .string s => parseFloatString rnd s
  | .boolean b => parseFloatString rnd (if b then "true" else "false")
  | .undefined => parseFloatString rnd "undefined"
  | .null => parseFloatString rnd "null"

/-! ## `sum.js` -/

/-- The message of the `Error` thrown by the parse step of `sum` and of `variance`. -/
def parseErrorMessage : String :=
  "All elements in the array must be numbers or parsable to numbers."

/-- The callback given to `x.map`: `Number.parseFloat(num)`, throwing when the result is
NaN. -/
def parsedNum (rnd : ℚ → ℚ) (num : JSValue) : Except String JSNum :=
  if (parseFloat rnd num).isNaN then .error parseErrorMessage else .ok (parseFloat rnd num)

/-- The array `parsedX = x.map(...)`: the elements are parsed from left to right and the
first throw aborts the whole `map`. -/
def parsedX (rnd : ℚ → ℚ) : List JSValue → Except String (List JSNum)
  | [] => .ok []
  | num :: rest =>
    match parsedNum rnd num with
    | .error e => .error e
    | .ok p =>
      match parsedX rnd rest with
      | .error e => .error e
      | .ok ps => .ok (p :: ps)

/-- The `for` loop of `sum` on the elements `parsedX[i], parsedX[i+1], ...` still to scan,
followed by `return sum + correction`. -/
def sumLoop (rnd : ℚ → ℚ) (sum correction : JSNum) : List JSNum → JSNum
  | [] => JSNum.add rnd sum correction
  | p :: rest =>
    if typeof (.number p) ≠ "number" then .nan
    else
      let transition := JSNum.add rnd sum p
      if JSNum.ge sum.abs p.abs then
        sumLoop rnd transition
          (JSNum.add rnd correction (JSNum.add rnd (JSNum.sub rnd sum transition) p)) rest
      else
        sumLoop rnd transition
          (JSNum.add rnd correction (JSNum.add rnd (JSNum.sub rnd p transition) sum)) rest

/-- Lines 36-66 of `sum.js`: the compensated scan of the parsed array.  On an empty array
`parsedX[0]` is `undefined`, whose `typeof` is not `"number"`, and the first guard returns
NaN. -/
def sumParsed (rnd : ℚ → ℚ) : List JSNum → JSNum
  | [] => .nan
  | first :: rest =>
    if typeof (.number first) ≠ "number" then .nan
    else sumLoop rnd first (.fin 0) rest

/-- The function `sum` of `sum.js`. -/
def sum (rnd : ℚ → ℚ) (x : List JSValue) : Except String JSNum :=
  if x.length = 0 then .ok (.fin 0)
  else
    match parsedX rnd x with
    | .error e => .error e
    | .ok parsed => .ok (sumParsed rnd parsed)

/-! ## `variance.js` -/

/-- The message of the `Error` thrown by `variance` on an empty array. -/
def emptyErrorMessage : String := "variance requires at least one data point"

/-- The function `variance` of `variance.js`; the imported `sumNthPowerDeviations` is a
parameter. -/
def variance (sumNthPowerDeviations : List JSNum → Nat → JSNum) (rnd : ℚ → ℚ)
    (x : List JSValue) : Except String JSNum :=
  if x.length = 0 then .error emptyErrorMessage
  else
    match parsedX rnd x with
    | .error e => .error e
    | .ok parsed =>
      .ok (JSNum.div rnd (sumNthPowerDeviations parsed 2) (.fin (parsed.length : ℚ)))

/-- Modelled from the spec: the stable-summation algorithm of section 4.1 on values that are
already numbers (`0` for no value, otherwise the compensated scan), as the collaborators of
`variance` use it. -/
def stableSum (rnd : ℚ → ℚ) (values : List JSNum) : JSNum :=
  if values.length = 0 then .fin 0 else sumParsed rnd values

/-- Modelled from the spec: the "external mean computation" (`mean.js` is not among the
sources), the stable sum of the values divided by their count. -/
def mean (rnd : ℚ → ℚ) (values : List JSNum) : JSNum :=
  JSNum.div rnd (stableSum rnd values) (.fin (values.length : ℚ))

/-- Modelled from the spec: `sum_nth_power_deviations.js` is not among the sources.  The
collaborator "builds the sequence of `(xᵢ − mean)^power` terms and reduces it via the
stable-summation algorithm". -/
def sumNthPowerDeviations (rnd : ℚ → ℚ) (x : List JSNum) (n : Nat) : JSNum :=
  stableSum rnd (x.map (fun xi => JSNum.pow rnd (JSNum.sub rnd xi (mean rnd x)) n))

/-! ## The accumulator of `sum` -/

/-- One iteration of the `for` loop of `sum` on the accumulator `(sum, correction)`, for an
element `p` that the `typeof` guard lets through. -/
def sumStep (rnd : ℚ → ℚ) (state : JSNum × JSNum) (p : JSNum) : JSNum × JSNum :=
  let transition := JSNum.add rnd state.1 p
  if JSNum.ge state.1.abs p.abs then
    (transition, JSNum.add rnd state.2 (JSNum.add rnd (JSNum.sub rnd state.1 transition) p))
  else
    (transition, JSNum.add rnd state.2 (JSNum.add rnd (JSNum.sub rnd p transition) state.1))

/-- The accumulator `(sum, correction)` after `i` iterations of the loop on the parsed array
`first :: rest`; it starts as `(parsedX[0], 0)`. -/
def sumState (rnd : ℚ → ℚ) (first : JSNum) (rest : List JSNum) (i : Nat) : JSNum × JSNum :=
  (rest.take i).foldl (sumStep rnd) (first, .fin 0)

/-! ## `sum.js` on an array with holes

`Array.prototype.map` does not call its callback on a missing element and leaves the hole in
the result; reading a hole gives `undefined`.  An array with holes is a list of optional
elements, `none` being a hole. -/

namespace Sparse

/-- Reading `parsedX[i]`: a hole reads as `undefined`. -/
def read : Option JSNum → JSValue
  | some p => .number p
  | none => .undefined

/-- The array `parsedX = x.map(...)` when `x` may have holes. -/
def parsedX (rnd : ℚ → ℚ) : List (Option JSValue) → Except String (List (Option JSNum))
  | [] => .ok []
  | none :: rest =>
    match parsedX rnd rest with
    | .error e => .error e
    | .ok ps => .ok (none :: ps)
  | some num :: rest =>
    match parsedNum rnd num with
    | .error e => .error e
    | .ok p =>
      match parsedX rnd rest with
      | .error e => .error e
      | .ok ps => .ok (some p :: ps)

/-- The `for` loop of `sum` and `return sum + correction`, when `parsedX` may have holes: on
a hole `typeof parsedX[i]` is `"undefined"` and the guard returns NaN. -/
def sumLoop (rnd : ℚ → ℚ) (sum correction : JSNum) : List (Option JSNum) → JSNum
  | [] => JSNum.add rnd sum correction
  | none :: _ => .nan
  | some p :: rest =>
    if typeof (.number p) ≠ "number" then .nan
    else sumLoop rnd (sumStep rnd (sum, correction) p).1 (sumStep rnd (sum, correction) p).2 rest

/-- Lines 36-66 of `sum.js` when `parsedX` may have holes: on a hole `typeof parsedX[0]` is
`"undefined"` and the first guard returns NaN. -/
def sumParsed (rnd : ℚ → ℚ) : List (Option JSNum) → JSNum
  | [] => .nan
  | none :: _ => .nan
  | some first :: rest =>
    if typeof (.number first) ≠ "number" then .nan
    else sumLoop rnd first (.fin 0) rest

/-- The function `sum` of `sum.js` on an array that may have holes. -/
def sum (rnd : ℚ → ℚ) (x : List (Option JSValue)) : Except String JSNum :=
  if x.length = 0 then .ok (.fin 0)
  else
    match parsedX rnd x with
    | .error e => .error e
    | .ok parsed => .ok (sumParsed rnd parsed)

/-- Whether one of the two guards `typeof ... !== "number"` of `sum` holds on the parsed
array: the one on `parsedX[0]` or the one on some `parsedX[i]` in the loop. -/
def guardFires : List (Option JSNum) → Bool
  | [] => decide (typeof .undefined ≠ "number")
  | first :: rest =>
    decide (typeof (read first) ≠ "number") ||
      rest.any (fun e => decide (typeof (read e) ≠ "number"))

end Sparse

/-! ## Reference definitions for the accuracy of `sum`

These are not functions of the repository: they say what `sum` is compared with. -/

/-- Naive left-to-right summation, in the words of the docstring of `sum`: "many successive
additions, each one with its own floating-point roundoff". -/
def naiveSum (rnd : ℚ → ℚ) (xs : List JSNum) : JSNum :=
  xs.foldl (JSNum.add rnd) (.fin 0)

/-- A sequence that alternates small and large magnitudes: each pair `(a, b)` of small
values contributes the four elements `a, B, b, -B`. -/
def alternating (B : ℚ) : List (ℕ × ℕ) → List ℚ
  | [] => []
  | ab :: rest => (ab.1 : ℚ) :: B :: (ab.2 : ℚ) :: -B :: alternating B rest

/-- Rounding to the nearest integer, ties to the even one. -/
def roundHalfEven (m : ℚ) : ℤ :=
  if m - ⌊m⌋ < 1 / 2 then ⌊m⌋
  else if 1 / 2 < m - ⌊m⌋ then ⌊m⌋ + 1
  else if ⌊m⌋ % 2 = 0 then ⌊m⌋ else ⌊m⌋ + 1

/-- The rounding of IEEE-754 binary64 arithmetic (round to nearest, ties to even, 53
significant bits) for a normal result: the exponent is unbounded, so neither overflow nor
subnormal numbers are modelled. -/
def roundBinary64 (q : ℚ) : ℚ :=
  if q = 0 then 0
  else if 0 < q then
    (roundHalfEven (|q| / 2 ^ (Int.log 2 |q| - 52)) : ℚ) * 2 ^ (Int.log 2 |q| - 52)
  else
    -((roundHalfEven (|q| / 2 ^ (Int.log 2 |q| - 52)) : ℚ) * 2 ^ (Int.log 2 |q| - 52))

/-- Rounding to an integer towards zero: a rounding function that is not the identity, used
to instantiate the rounding parameter. -/
def truncate (q : ℚ) : ℚ :=
  if 0 ≤ q then (⌊q⌋ : ℚ) else -(⌊-q⌋ : ℚ)

/-! ## The parse step -/

theorem typeof_number (p : JSNum) : typeof (.number p) = "number" := rfl

theorem parseFloat_number (rnd : ℚ → ℚ) (p : JSNum) : parseFloat rnd (.number p) = p := rfl

theorem isNaN_eq_true_iff (p : JSNum) : p.isNaN = true ↔ p = .nan := by
  cases p <;> simp [JSNum.isNaN]

/-- The parse step as a whole: it throws exactly when some element parses to NaN, and
otherwise yields the element-wise `parseFloat`. -/
theorem parsedX_eq (rnd : ℚ → ℚ) (x : List JSValue) :
    parsedX rnd x =
      if x.any (fun v => (parseFloat rnd v).isNaN) then .error parseErrorMessage
      else .ok (x.map (parseFloat rnd)) := by
  induction x with
  | nil => rfl
  | cons v rest ih =>
    by_cases hv : (parseFloat rnd v).isNaN = true
    · simp [parsedX, parsedNum, hv]
    · by_cases hr : rest.any (fun v => (parseFloat rnd v).isNaN) = true
      · simp only [parsedX, parsedNum, hv, ih, hr]
        simp [hr]
      · simp only [parsedX, parsedNum, hv, ih, hr]
        simp [hv, hr]

theorem any_isNaN_iff (rnd : ℚ → ℚ) (x : List JSValue) :
    x.any (fun v => (parseFloat rnd v).isNaN) = true ↔ ∃ v ∈ x, parseFloat rnd v = .nan := by
  simp [List.any_eq_true, isNaN_eq_true_iff]

theorem parsedX_error_iff (rnd : ℚ → ℚ) (x : List JSValue) (e : String) :
    parsedX rnd x = .error e ↔ e = parseErrorMessage ∧ ∃ v ∈ x, parseFloat rnd v = .nan := by
  rw [parsedX_eq, ← any_isNaN_iff]
  by_cases h : x.any (fun v => (parseFloat rnd v).isNaN) = true
  · simp [h, eq_comm]
  · simp [h]

theorem parsedX_ok_iff (rnd : ℚ → ℚ) (x : List JSValue) (ps : List JSNum) :
    parsedX rnd x = .ok ps ↔
      ps = x.map (parseFloat rnd) ∧ ∀ v ∈ x, parseFloat rnd v ≠ .nan := by
  rw [parsedX_eq]
  by_cases h : x.any (fun v => (parseFloat rnd v).isNaN) = true
  · have h2 := (any_isNaN_iff rnd x).mp h
    simp only [h, if_true]
    constructor
    · intro h3; cases h3
    · rintro ⟨_, h3⟩
      obtain ⟨v, hv, hn⟩ := h2
      exact absurd hn (h3 v hv)
  · have h2 : ¬ ∃ v ∈ x, parseFloat rnd v = .nan := fun h3 => h ((any_isNaN_iff rnd x).mpr h3)
    simp only [h]
    constructor
    · intro h3
      injection h3 with h4
      exact ⟨h4.symm, fun v hv hn => h2 ⟨v, hv, hn⟩⟩
    · rintro ⟨h3, _⟩
      simp [h3]

/-! ## The scan -/

theorem sumLoop_cons (rnd : ℚ → ℚ) (s c p : JSNum) (rest : List JSNum) :
    sumLoop rnd s c (p :: rest) =
      sumLoop rnd (JSNum.add rnd s p)
        (JSNum.add rnd c
          (if JSNum.ge s.abs p.abs then JSNum.add rnd (JSNum.sub rnd s (JSNum.add rnd s p)) p
           else JSNum.add rnd (JSNum.sub rnd p (JSNum.add rnd s p)) s)) rest := by
  simp only [sumLoop, typeof_number, ne_eq, not_true_eq_false, if_false]
  split <;> rfl

theorem sumParsed_cons (rnd : ℚ → ℚ) (first : JSNum) (rest : List JSNum) :
    sumParsed rnd (first :: rest) = sumLoop rnd first (.fin 0) rest := by
  simp [sumParsed, typeof_number]

/-- Under exact arithmetic the scan of finite numbers keeps `sum + correction` equal to the
exact sum. -/
theorem sumLoop_exact (s c : ℚ) (qs : List ℚ) :
    sumLoop id (.fin s) (.fin c) (qs.map JSNum.fin) = .fin (s + c + qs.sum) := by
  induction qs generalizing s c with
  | nil => simp [sumLoop, JSNum.add]
  | cons q rest ih =>
    rw [List.map_cons, sumLoop_cons]
    have h1 : JSNum.add id (.fin s) (.fin q) = .fin (s + q) := rfl
    have h2 : JSNum.add id (.fin c)
        (if JSNum.ge (JSNum.fin s).abs (JSNum.fin q).abs
          then JSNum.add id (JSNum.sub id (.fin s) (.fin (s + q))) (.fin q)
          else JSNum.add id (JSNum.sub id (.fin q) (.fin (s + q))) (.fin s)) = .fin c := by
      split <;> simp [JSNum.add, JSNum.sub]
    rw [h1, h2, ih, List.sum_cons]
    congr 1
    ring

/-! ## `sum` as a whole -/

/-- The three outcomes of `sum`: zero on the empty array, the parse error when some element
parses to NaN, and otherwise the scan of the parsed elements. -/
theorem sum_eq (rnd : ℚ → ℚ) (x : List JSValue) :
    sum rnd x =
      if x = [] then .ok (.fin 0)
      else if x.any (fun v => (parseFloat rnd v).isNaN) then .error parseErrorMessage
      else .ok (sumParsed rnd (x.map (parseFloat rnd))) := by
  unfold sum
  rw [parsedX_eq]
  cases x with
  | nil => rfl
  | cons v rest =>
    simp only [List.length_cons, Nat.succ_ne_zero, if_false, reduceCtorEq]
    by_cases h : (v :: rest).any (fun v => (parseFloat rnd v).isNaN) = true
    · simp only [h, if_true]
    · simp only [h, if_false, Bool.false_eq_true]

theorem any_isNaN_map_fin (rnd : ℚ → ℚ) (qs : List ℚ) :
    (qs.map (fun q => JSValue.number (.fin q))).any (fun v => (parseFloat rnd v).isNaN)
      = false := by
  induction qs with
  | nil => rfl
  | cons q rest ih => simp [parseFloat, JSNum.isNaN]

theorem map_parseFloat_map_fin (rnd : ℚ → ℚ) (qs : List ℚ) :
    (qs.map (fun q => JSValue.number (.fin q))).map (parseFloat rnd) = qs.map JSNum.fin := by
  induction qs with
  | nil => rfl
  | cons q rest ih => simp [parseFloat]

/-- Claim C1: under exact arithmetic (`rnd = id`) `sum` of a list of finite numbers is the
exact sum of the elements, and `sum([1, 2, 3]) = 6`. -/
theorem sum_exact :
    (∀ qs : List ℚ, sum id (qs.map (fun q => JSValue.number (.fin q))) = .ok (.fin qs.sum)) ∧
    sum id [.number (.fin 1), .number (.fin 2), .number (.fin 3)] = .ok (.fin 6) := by
  have key : ∀ qs : List ℚ,
      sum id (qs.map (fun q => JSValue.number (.fin q))) = .ok (.fin qs.sum) := by
    intro qs
    rw [sum_eq, any_isNaN_map_fin, map_parseFloat_map_fin]
    cases qs with
    | nil => rfl
    | cons q rest =>
      simp only [List.map_cons, reduceCtorEq, if_false, Bool.false_eq_true]
      rw [sumParsed_cons, sumLoop_exact, List.sum_cons, add_zero]
  refine ⟨key, ?_⟩
  have h := key [1, 2, 3]
  norm_num at h
  exact h

/-- Claim C2: `sum` throws if and only if the array is non-empty and some element, at any
position, parses to NaN; the thrown error is the parse error, nothing is returned then, and
the empty array does not throw. -/
theorem sum_throws_iff (rnd : ℚ → ℚ) (x : List JSValue) :
    ((∃ e, sum rnd x = .error e) ↔ (x ≠ [] ∧ ∃ v ∈ x, parseFloat rnd v = .nan)) ∧
    (∀ e, sum rnd x = .error e → e = parseErrorMessage ∧ ∀ r, sum rnd x ≠ .ok r) ∧
    (∀ (before after : List JSValue) (v : JSValue), parseFloat rnd v = .nan →
      sum rnd (before ++ v :: after) = .error parseErrorMessage) ∧
    (∀ e, sum rnd [] ≠ .error e) := by
  have main : ∀ y : List JSValue, ∀ e, sum rnd y = .error e ↔
      (e = parseErrorMessage ∧ y ≠ [] ∧ ∃ v ∈ y, parseFloat rnd v = .nan) := by
    intro y e
    rw [sum_eq, ← any_isNaN_iff]
    by_cases h1 : y = []
    · simp [h1]
    · by_cases h2 : y.any (fun v => (parseFloat rnd v).isNaN) = true
      · simp only [h1, h2, if_false, if_true]
        constructor
        · intro h; injection h with h; exact ⟨h.symm, h1, trivial⟩
        · rintro ⟨h, _⟩; rw [h]
      · simp [h1, h2]
  refine ⟨?_, ?_, ?_, ?_⟩
  · constructor
    · rintro ⟨e, he⟩; exact ((main x e).mp he).2
    · intro h; exact ⟨parseErrorMessage, (main x _).mpr ⟨rfl, h⟩⟩
  · intro e he
    refine ⟨((main x e).mp he).1, ?_⟩
    intro r hr
    rw [he] at hr
    cases hr
  · intro before after v hv
    refine (main _ _).mpr ⟨rfl, by simp, v, by simp, hv⟩
  · intro e he
    exact ((main [] e).mp he).2.1 rfl

/-- Claim C3 fails on the code: `sum([1, NaN])` throws the parse error and does not return
NaN. -/
theorem sum_nan_element_throws :
    sum id [.number (.fin 1), .number .nan] = .error parseErrorMessage ∧
    sum id [.number (.fin 1), .number .nan] ≠ .ok .nan := by
  have h : sum id [.number (.fin 1), .number .nan] = .error parseErrorMessage := by
    rw [sum_eq]
    simp [parseFloat, JSNum.isNaN]
  refine ⟨h, ?_⟩
  rw [h]
  intro h2
  cases h2

/-- Claim C3, amended: when some element after the first is the number NaN, `sum` throws
the parse error (and so returns nothing, NaN included). -/
theorem sum_nan_after_first_throws (rnd : ℚ → ℚ) (first : JSValue) (rest : List JSValue)
    (h : JSValue.number .nan ∈ rest) :
    sum rnd (first :: rest) = .error parseErrorMessage ∧
    ∀ r, sum rnd (first :: rest) ≠ .ok r := by
  have h1 : sum rnd (first :: rest) = .error parseErrorMessage := by
    rw [sum_eq]
    have h2 : (first :: rest).any (fun v => (parseFloat rnd v).isNaN) = true := by
      rw [any_isNaN_iff]
      exact ⟨.number .nan, List.mem_cons_of_mem _ h, rfl⟩
    simp [h2]
  refine ⟨h1, ?_⟩
  intro r hr
  rw [h1] at hr
  cases hr

theorem sum_nan_after_first_throws_witness :
    JSValue.number .nan ∈ [JSValue.string "2", JSValue.number .nan] ∧
    sum truncate [.number (.fin 1), .string "2", .number .nan] = .error parseErrorMessage ∧
    ∀ r, sum truncate [.number (.fin 1), .string "2", .number .nan] ≠ .ok r :=
  ⟨by simp, sum_nan_after_first_throws truncate (.number (.fin 1))
    [.string "2", .number .nan] (by simp)⟩

/-- Claim C4: `sum` of the empty array returns 0 and throws nothing. -/
theorem sum_empty (rnd : ℚ → ℚ) :
    sum rnd [] = .ok (.fin 0) ∧ ∀ e, sum rnd [] ≠ .error e := by
  have h : sum rnd [] = .ok (.fin 0) := rfl
  refine ⟨h, ?_⟩
  intro e he
  rw [h] at he
  cases he

/-- Claim C5: for every finite number `a` (a value the rounding leaves unchanged; every
rational under exact arithmetic) `sum([a])` returns `a`. -/
theorem sum_singleton (rnd : ℚ → ℚ) (a : ℚ) (ha : rnd a = a) :
    sum rnd [.number (.fin a)] = .ok (.fin a) := by
  rw [sum_eq]
  simp [parseFloat, JSNum.isNaN, sumParsed_cons, sumLoop, JSNum.add, ha]

theorem sum_singleton_witness :
    truncate 7 = 7 ∧ sum truncate [.number (.fin 7)] = .ok (.fin 7) :=
  ⟨by simp [truncate], sum_singleton truncate 7 (by simp [truncate])⟩

/-! ## Negation -/

theorem truncate_neg (q : ℚ) : truncate (-q) = -truncate q := by
  unfold truncate
  rcases lt_trichotomy q 0 with h | h | h
  · have h1 : (0 : ℚ) ≤ -q := by linarith
    have h2 : ¬ (0 : ℚ) ≤ q := by linarith
    simp [h1, h2]
  · subst h; simp
  · have h1 : ¬ (0 : ℚ) ≤ -q := by linarith
    have h2 : (0 : ℚ) ≤ q := by linarith
    simp [h1, h2]

theorem neg_neg_num (a : JSNum) : a.neg.neg = a := by
  cases a <;> simp [JSNum.neg]

theorem neg_add_num (rnd : ℚ → ℚ) (hneg : ∀ q, rnd (-q) = -rnd q) (a b : JSNum) :
    JSNum.add rnd a.neg b.neg = (JSNum.add rnd a b).neg := by
  cases a <;> cases b <;> simp [JSNum.neg, JSNum.add]
  rw [← hneg]; congr 1; ring

theorem neg_sub_num (rnd : ℚ → ℚ) (hneg : ∀ q, rnd (-q) = -rnd q) (a b : JSNum) :
    JSNum.sub rnd a.neg b.neg = (JSNum.sub rnd a b).neg := by
  cases a <;> cases b <;> simp [JSNum.neg, JSNum.sub]
  rw [← hneg]; congr 1; ring

theorem abs_neg_num (a : JSNum) : a.neg.abs = a.abs := by
  cases a <;> simp [JSNum.neg, JSNum.abs]

theorem isNaN_neg_num (a : JSNum) : a.neg.isNaN = a.isNaN := by
  cases a <;> simp [JSNum.neg, JSNum.isNaN]

/-- Negating the accumulator and every element still to scan negates the result of the
scan. -/
theorem sumLoop_neg (rnd : ℚ → ℚ) (hneg : ∀ q, rnd (-q) = -rnd q) (s c : JSNum)
    (ps : List JSNum) :
    sumLoop rnd s.neg c.neg (ps.map JSNum.neg) = (sumLoop rnd s c ps).neg := by
  induction ps generalizing s c with
  | nil => simp [sumLoop, neg_add_num rnd hneg]
  | cons p rest ih =>
    rw [List.map_cons, sumLoop_cons, sumLoop_cons, abs_neg_num, abs_neg_num,
      neg_add_num rnd hneg s p, ← ih]
    congr 1
    split
    · rw [neg_sub_num rnd hneg, neg_add_num rnd hneg, neg_add_num rnd hneg]
    · rw [neg_sub_num rnd hneg, neg_add_num rnd hneg, neg_add_num rnd hneg]

theorem sumParsed_neg (rnd : ℚ → ℚ) (hneg : ∀ q, rnd (-q) = -rnd q) (p : JSNum)
    (ps : List JSNum) :
    sumParsed rnd ((p :: ps).map JSNum.neg) = (sumParsed rnd (p :: ps)).neg := by
  rw [List.map_cons, sumParsed_cons, sumParsed_cons, ← sumLoop_neg rnd hneg]
  simp [JSNum.neg]

theorem map_parseFloat_map_number (rnd : ℚ → ℚ) (ps : List JSNum) :
    (ps.map JSValue.number).map (parseFloat rnd) = ps := by
  induction ps with
  | nil => rfl
  | cons p rest ih => simpa [parseFloat] using ih

theorem any_isNaN_map_number (rnd : ℚ → ℚ) (ps : List JSNum) :
    (ps.map JSValue.number).any (fun v => (parseFloat rnd v).isNaN) = ps.any JSNum.isNaN := by
  induction ps with
  | nil => rfl
  | cons p rest ih => rw [List.map_cons, List.any_cons, List.any_cons, ih, parseFloat_number]

theorem any_isNaN_map_neg (ps : List JSNum) :
    (ps.map JSNum.neg).any JSNum.isNaN = ps.any JSNum.isNaN := by
  induction ps with
  | nil => rfl
  | cons p rest ih => rw [List.map_cons, List.any_cons, List.any_cons, ih, isNaN_neg_num]

theorem map_number_neg (ps : List JSNum) :
    ps.map (fun p => JSValue.number p.neg) = (ps.map JSNum.neg).map JSValue.number := by
  simp [List.map_map, Function.comp_def]

/-- Claim C6: for every list `x` of numbers, `sum(x)` is the negation of `sum` of the
element-wise negated list, for every rounding that commutes with negation (exact arithmetic
is `rnd = id`). -/
theorem sum_neg (rnd : ℚ → ℚ) (hneg : ∀ q, rnd (-q) = -rnd q) (x : List JSNum) :
    sum rnd (x.map JSValue.number) =
      Except.map JSNum.neg (sum rnd (x.map (fun p => JSValue.number p.neg))) := by
  rw [map_number_neg, sum_eq, sum_eq, any_isNaN_map_number, any_isNaN_map_number,
    map_parseFloat_map_number, map_parseFloat_map_number, any_isNaN_map_neg]
  cases x with
  | nil => simp [Except.map, JSNum.neg]
  | cons p ps =>
    rw [sumParsed_neg rnd hneg]
    simp only [List.map_cons, reduceCtorEq, if_false]
    split
    · rfl
    · simp [Except.map, neg_neg_num]

theorem sum_neg_witness :
    (∀ q, truncate (-q) = -truncate q) ∧
    sum truncate ([JSNum.fin (5 / 2), JSNum.fin (-7), JSNum.fin 3].map JSValue.number) =
      Except.map JSNum.neg
        (sum truncate ([JSNum.fin (5 / 2), JSNum.fin (-7), JSNum.fin 3].map
          (fun p => JSValue.number p.neg))) :=
  ⟨truncate_neg, sum_neg truncate truncate_neg [.fin (5 / 2), .fin (-7), .fin 3]⟩

/-! ## Coercion of strings -/

theorem any_isNaN_eq_false (rnd : ℚ → ℚ) (x : List JSValue)
    (h : ∀ v ∈ x, parseFloat rnd v ≠ .nan) :
    x.any (fun v => (parseFloat rnd v).isNaN) = false := by
  rw [Bool.eq_false_iff]
  intro h1
  obtain ⟨v, hv, hn⟩ := (any_isNaN_iff rnd x).mp h1
  exact h v hv hn

/-- Claim C7: when every element coerces, `sum` of the list equals `sum` of the list of the
coerced numbers, so strings and numbers for the same values give the same result; and
`sum(["1.5", "2.5"]) = 4` under exact arithmetic. -/
theorem sum_coerced (rnd : ℚ → ℚ) (x : List JSValue)
    (h : ∀ v ∈ x, parseFloat rnd v ≠ .nan) :
    sum rnd x = sum rnd (x.map (fun v => JSValue.number (parseFloat rnd v))) ∧
    sum id [.string "1.5", .string "2.5"] = .ok (.fin 4) := by
  constructor
  · have h1 : x.map (fun v => JSValue.number (parseFloat rnd v))
        = (x.map (parseFloat rnd)).map JSValue.number := by
      simp [List.map_map, Function.comp_def]
    have h2 : (x.map (parseFloat rnd)).any JSNum.isNaN = false := by
      have h3 := any_isNaN_eq_false rnd x h
      rw [Bool.eq_false_iff] at h3 ⊢
      intro h4
      apply h3
      rw [List.any_eq_true] at h4 ⊢
      obtain ⟨p, hp, hn⟩ := h4
      obtain ⟨v, hv, rfl⟩ := List.mem_map.mp hp
      exact ⟨v, hv, hn⟩
    rw [h1, sum_eq, sum_eq, any_isNaN_map_number, map_parseFloat_map_number, h2,
      any_isNaN_eq_false rnd x h]
    cases x with
    | nil => rfl
    | cons v rest => simp
  · rw [sum_eq]
    simp [parseFloat, parseFloatString, parseDecimal, parseUnsignedDecimal, isStrWhiteSpaceChar,
      digitsValue, parseExponent, JSNum.isNaN, sumParsed_cons, sumLoop_cons, sumLoop,
      typeof_number, JSNum.add, JSNum.sub, JSNum.abs, JSNum.ge]
    norm_num

theorem sum_coerced_witness :
    (∀ v ∈ [JSValue.string " 12e-1x", JSValue.number (.fin 3)], parseFloat id v ≠ .nan) ∧
    (sum id [JSValue.string " 12e-1x", JSValue.number (.fin 3)] =
      sum id ([JSValue.string " 12e-1x", JSValue.number (.fin 3)].map
        (fun v => JSValue.number (parseFloat id v))) ∧
     sum id [.string "1.5", .string "2.5"] = .ok (.fin 4)) :=
  ⟨by simp [parseFloat, parseFloatString, parseDecimal, parseUnsignedDecimal,
      isStrWhiteSpaceChar, digitsValue, parseExponent, exponentDigits],
   sum_coerced id [.string " 12e-1x", .number (.fin 3)]
    (by simp [parseFloat, parseFloatString, parseDecimal, parseUnsignedDecimal,
      isStrWhiteSpaceChar, digitsValue, parseExponent, exponentDigits])⟩

/-! ## `variance` -/

/-- The three outcomes of `variance`: the empty-input error, the parse error when some
element parses to NaN, and otherwise the quotient of the collaborator's result by the
count. -/
theorem variance_eq (snpd : List JSNum → Nat → JSNum) (rnd : ℚ → ℚ) (x : List JSValue) :
    variance snpd rnd x =
      if x = [] then .error emptyErrorMessage
      else if x.any (fun v => (parseFloat rnd v).isNaN) then .error parseErrorMessage
      else .ok (JSNum.div rnd (snpd (x.map (parseFloat rnd)) 2) (.fin (x.length : ℚ))) := by
  unfold variance
  rw [parsedX_eq]
  cases x with
  | nil => rfl
  | cons v rest =>
    simp only [List.length_cons, Nat.succ_ne_zero, if_false, reduceCtorEq]
    by_cases h : (v :: rest).any (fun v => (parseFloat rnd v).isNaN) = true
    · simp only [h, if_true]
    · simp only [h, if_false, Bool.false_eq_true, List.length_map, List.length_cons]

theorem stableSum_exact (qs : List ℚ) : stableSum id (qs.map JSNum.fin) = .fin qs.sum := by
  cases qs with
  | nil => rfl
  | cons q rest =>
    simp only [stableSum, List.map_cons, List.length_cons, Nat.succ_ne_zero, if_false]
    rw [sumParsed_cons, sumLoop_exact, List.sum_cons, add_zero]

theorem mean_exact (qs : List ℚ) (h : qs ≠ []) :
    mean id (qs.map JSNum.fin) = .fin (qs.sum / qs.length) := by
  have hlen : (qs.length : ℚ) ≠ 0 := by
    have : qs.length ≠ 0 := fun h0 => h (List.length_eq_zero.mp h0)
    exact_mod_cast this
  simp [mean, stableSum_exact, JSNum.div, hlen]

/-- Under exact arithmetic the spec-modelled collaborator at power 2 returns the sum of the
squared deviations from the mean. -/
theorem sumNthPowerDeviations_exact (qs : List ℚ) (h : qs ≠ []) :
    sumNthPowerDeviations id (qs.map JSNum.fin) 2 =
      .fin ((qs.map (fun q => (q - qs.sum / qs.length) ^ 2)).sum) := by
  unfold sumNthPowerDeviations
  rw [mean_exact qs h, ← stableSum_exact, List.map_map, List.map_map]
  congr 1
  apply List.map_congr_left
  intro q _
  simp only [Function.comp_apply, JSNum.pow, JSNum.sub, JSNum.mul, id]
  congr 1
  ring

/-- Claim C8: for a non-empty list of `N` numbers, `variance` divides by `N` what the
collaborator `sumNthPowerDeviations` returns at power 2, and under exact arithmetic, with
the collaborator as the spec describes it, that is the sum of the squared deviations from
the mean divided by `N`: the population variance. -/
theorem variance_population (qs : List ℚ) (h : qs ≠ []) :
    (∀ (snpd : List JSNum → Nat → JSNum) (rnd : ℚ → ℚ),
      variance snpd rnd (qs.map (fun q => JSValue.number (.fin q))) =
        .ok (JSNum.div rnd (snpd (qs.map JSNum.fin) 2) (.fin (qs.length : ℚ)))) ∧
    variance (sumNthPowerDeviations id) id (qs.map (fun q => JSValue.number (.fin q))) =
      .ok (.fin ((qs.map (fun q => (q - qs.sum / qs.length) ^ 2)).sum / qs.length)) := by
  have hlen : (qs.length : ℚ) ≠ 0 := by
    have : qs.length ≠ 0 := fun h0 => h (List.length_eq_zero.mp h0)
    exact_mod_cast this
  have gen : ∀ (snpd : List JSNum → Nat → JSNum) (rnd : ℚ → ℚ),
      variance snpd rnd (qs.map (fun q => JSValue.number (.fin q))) =
        .ok (JSNum.div rnd (snpd (qs.map JSNum.fin) 2) (.fin (qs.length : ℚ))) := by
    intro snpd rnd
    rw [variance_eq, any_isNaN_map_fin, map_parseFloat_map_fin]
    simp [h]
  refine ⟨gen, ?_⟩
  rw [gen, sumNthPowerDeviations_exact qs h]
  simp [JSNum.div, hlen]

theorem variance_population_witness :
    ([1, 2, 3, 4, 5, 6] : List ℚ) ≠ [] ∧
    variance (sumNthPowerDeviations id) id
      [.number (.fin 1), .number (.fin 2), .number (.fin 3), .number (.fin 4),
        .number (.fin 5), .number (.fin 6)] = .ok (.fin (35 / 12)) := by
  refine ⟨by simp, ?_⟩
  have h := (variance_population [1, 2, 3, 4, 5, 6] (by simp)).2
  norm_num at h
  exact h

/-- Claim C9: `variance` of the empty array throws the empty-input error and returns
nothing; that error differs from the parse error, and a non-empty array never throws it. -/
theorem variance_empty (snpd : List JSNum → Nat → JSNum) (rnd : ℚ → ℚ) :
    variance snpd rnd [] = .error emptyErrorMessage ∧
    (∀ r, variance snpd rnd [] ≠ .ok r) ∧
    emptyErrorMessage ≠ parseErrorMessage ∧
    (∀ (v : JSValue) (rest : List JSValue),
      variance snpd rnd (v :: rest) ≠ .error emptyErrorMessage) := by
  have h : variance snpd rnd [] = .error emptyErrorMessage := rfl
  have hne : emptyErrorMessage ≠ parseErrorMessage := by decide
  refine ⟨h, ?_, hne, ?_⟩
  · intro r hr
    rw [h] at hr
    cases hr
  · intro v rest hv
    rw [variance_eq] at hv
    simp only [reduceCtorEq, if_false] at hv
    split at hv
    · injection hv with hv
      exact hne hv.symm
    · cases hv

/-- Claim C10: on a non-empty array `variance` throws the parse error if and only if some
element, at any position, parses to NaN; it throws no other error and returns nothing
then. -/
theorem variance_throws_iff (snpd : List JSNum → Nat → JSNum) (rnd : ℚ → ℚ)
    (x : List JSValue) (hx : x ≠ []) :
    (variance snpd rnd x = .error parseErrorMessage ↔ ∃ v ∈ x, parseFloat rnd v = .nan) ∧
    (∀ e, variance snpd rnd x = .error e →
      e = parseErrorMessage ∧ ∀ r, variance snpd rnd x ≠ .ok r) ∧
    (∀ (before after : List JSValue) (v : JSValue), parseFloat rnd v = .nan →
      variance snpd rnd (before ++ v :: after) = .error parseErrorMessage) := by
  have main : ∀ y : List JSValue, y ≠ [] → ∀ e, variance snpd rnd y = .error e ↔
      (e = parseErrorMessage ∧ ∃ v ∈ y, parseFloat rnd v = .nan) := by
    intro y hy e
    rw [variance_eq, ← any_isNaN_iff]
    by_cases h2 : y.any (fun v => (parseFloat rnd v).isNaN) = true
    · simp only [hy, h2, if_false, if_true]
      constructor
      · intro h; injection h with h; exact ⟨h.symm, trivial⟩
      · rintro ⟨h, _⟩; rw [h]
    · simp [hy, h2]
  refine ⟨?_, ?_, ?_⟩
  · constructor
    · intro h; exact ((main x hx _).mp h).2
    · intro h; exact (main x hx _).mpr ⟨rfl, h⟩
  · intro e he
    refine ⟨((main x hx e).mp he).1, ?_⟩
    intro r hr
    rw [he] at hr
    cases hr
  · intro before after v hv
    exact (main _ (by simp) _).mpr ⟨rfl, v, by simp, hv⟩

theorem variance_throws_iff_witness :
    [JSValue.string "1", JSValue.string "a", JSValue.string "3"] ≠ [] ∧
    variance (sumNthPowerDeviations id) id [.string "1", .string "a", .string "3"] =
      .error parseErrorMessage :=
  ⟨by simp,
   (variance_throws_iff (sumNthPowerDeviations id) id
      [.string "1", .string "a", .string "3"] (by simp)).1.mpr
    ⟨.string "a", by simp, by
      simp [parseFloat, parseFloatString, parseDecimal, parseUnsignedDecimal,
        isStrWhiteSpaceChar]⟩⟩

/-! ## The accumulator invariant -/

/-- The loop is the fold of `sumStep` over the elements still to scan, followed by
`sum + correction`. -/
theorem sumLoop_eq_foldl (rnd : ℚ → ℚ) (s c : JSNum) (ps : List JSNum) :
    sumLoop rnd s c ps =
      JSNum.add rnd (ps.foldl (sumStep rnd) (s, c)).1 (ps.foldl (sumStep rnd) (s, c)).2 := by
  induction ps generalizing s c with
  | nil => rfl
  | cons p rest ih =>
    rw [sumLoop_cons, ih, List.foldl_cons]
    congr 2 <;> (unfold sumStep; split <;> rfl)

theorem sumStep_exact (s c p : ℚ) :
    sumStep id (.fin s, .fin c) (.fin p) = (.fin (s + p), .fin c) := by
  unfold sumStep
  split <;> simp [JSNum.add, JSNum.sub]

theorem foldl_sumStep_exact (s c : ℚ) (qs : List ℚ) :
    (qs.map JSNum.fin).foldl (sumStep id) (.fin s, .fin c) = (.fin (s + qs.sum), .fin c) := by
  induction qs generalizing s with
  | nil => simp
  | cons q rest ih =>
    rw [List.map_cons, List.foldl_cons, sumStep_exact, ih, List.sum_cons, add_assoc]

theorem sumState_exact (first : ℚ) (rest : List ℚ) (i : Nat) :
    sumState id (.fin first) (rest.map JSNum.fin) i =
      (.fin (first + (rest.take i).sum), .fin 0) := by
  unfold sumState
  rw [← List.map_take, foldl_sumStep_exact]

/-- The sum of a non-throwing, non-empty call is `sum + correction` of the accumulator after
the last iteration. -/
theorem sum_eq_sumState (rnd : ℚ → ℚ) (x : List JSValue) (first : JSNum) (rest : List JSNum)
    (h : parsedX rnd x = .ok (first :: rest)) :
    sum rnd x = .ok (JSNum.add rnd (sumState rnd first rest rest.length).1
      (sumState rnd first rest rest.length).2) := by
  have hx : x.length ≠ 0 := by
    intro h0
    rw [List.length_eq_zero.mp h0] at h
    simp [parsedX] at h
  unfold sum
  rw [h]
  simp only [hx, if_false]
  rw [sumParsed_cons, sumLoop_eq_foldl]
  simp [sumState]

theorem parsedX_map_fin (rnd : ℚ → ℚ) (qs : List ℚ) :
    parsedX rnd (qs.map (fun q => JSValue.number (.fin q))) = .ok (qs.map JSNum.fin) := by
  rw [parsedX_eq, any_isNaN_map_fin, map_parseFloat_map_fin]
  simp

/-- Claim C14: under exact arithmetic the accumulator starts as `(first, 0)`; every
iteration, in either branch of the magnitude test, adds the element to `sum` and leaves
`correction` unchanged, so after `i` iterations `correction` is 0 and `sum + correction` is
the exact sum of the elements `0..i`; `sum` returns `sum + correction` of the last state. -/
theorem sum_accumulator_invariant (first : ℚ) (rest : List ℚ) (i : Nat) :
    sumState id (.fin first) (rest.map JSNum.fin) 0 = (.fin first, .fin 0) ∧
    (∀ s c p : ℚ, sumStep id (.fin s, .fin c) (.fin p) = (.fin (s + p), .fin c)) ∧
    (sumState id (.fin first) (rest.map JSNum.fin) i).2 = .fin 0 ∧
    JSNum.add id (sumState id (.fin first) (rest.map JSNum.fin) i).1
        (sumState id (.fin first) (rest.map JSNum.fin) i).2
      = .fin (((first :: rest).take (i + 1)).sum) ∧
    sum id ((first :: rest).map (fun q => JSValue.number (.fin q))) =
      .ok (JSNum.add id
        (sumState id (.fin first) (rest.map JSNum.fin) (rest.map JSNum.fin).length).1
        (sumState id (.fin first) (rest.map JSNum.fin) (rest.map JSNum.fin).length).2) := by
  refine ⟨rfl, sumStep_exact, ?_, ?_, ?_⟩
  · rw [sumState_exact]
  · rw [sumState_exact]
    simp [JSNum.add]
  · exact sum_eq_sumState id _ _ _ (parsedX_map_fin id (first :: rest))

/-! ## The `typeof` guards -/

theorem sparse_parsedX_map_some (rnd : ℚ → ℚ) (x : List JSValue) :
    Sparse.parsedX rnd (x.map some) =
      match parsedX rnd x with
      | .error e => .error e
      | .ok ps => .ok (ps.map some) := by
  induction x with
  | nil => rfl
  | cons v rest ih =>
    simp only [List.map_cons, Sparse.parsedX, parsedX, ih]
    cases parsedNum rnd v with
    | error e => rfl
    | ok p =>
      cases parsedX rnd rest with
      | error e => rfl
      | ok ps => rfl

theorem sparse_sumLoop_map_some (rnd : ℚ → ℚ) (s c : JSNum) (ps : List JSNum) :
    Sparse.sumLoop rnd s c (ps.map some) =
      JSNum.add rnd (ps.foldl (sumStep rnd) (s, c)).1 (ps.foldl (sumStep rnd) (s, c)).2 := by
  induction ps generalizing s c with
  | nil => rfl
  | cons p rest ih =>
    simp only [List.map_cons, Sparse.sumLoop, typeof_number, ne_eq, not_true_eq_false,
      if_false, ih, List.foldl_cons]

/-- On an array without holes the model with holes is the function `sum`. -/
theorem sparse_sum_map_some (rnd : ℚ → ℚ) (x : List JSValue) :
    Sparse.sum rnd (x.map some) = sum rnd x := by
  unfold Sparse.sum sum
  rw [sparse_parsedX_map_some, List.length_map]
  split
  · rfl
  · cases parsedX rnd x with
    | error e => rfl
    | ok ps =>
      cases ps with
      | nil => rfl
      | cons first rest =>
        simp only [List.map_cons, Sparse.sumParsed, typeof_number, ne_eq, not_true_eq_false,
          if_false, sparse_sumLoop_map_some, sumParsed_cons, sumLoop_eq_foldl]

theorem sparse_guardFires_map_some (first : JSNum) (rest : List JSNum) :
    Sparse.guardFires ((first :: rest).map some) = false := by
  simp only [List.map_cons, Sparse.guardFires]
  rw [Bool.or_eq_false_iff]
  constructor
  · simp [Sparse.read, typeof_number]
  · rw [Bool.eq_false_iff]
    intro h
    obtain ⟨e, he, hp⟩ := List.any_eq_true.mp h
    obtain ⟨p, _, rfl⟩ := List.mem_map.mp he
    simp [Sparse.read, typeof_number] at hp

/-- Claim C15 fails on the code: on the array `[ , ]` of one hole the parse step does not
throw, `parsedX[0]` is `undefined`, the first guard holds and `sum` returns NaN through it;
on `[1, , 3]` the guard in the loop does the same. -/
theorem sum_hole_reaches_guard :
    Sparse.parsedX id [none] = .ok [none] ∧
    Sparse.guardFires [none] = true ∧
    Sparse.sum id [none] = .ok .nan ∧
    Sparse.parsedX id [some (.number (.fin 1)), none, some (.number (.fin 3))]
      = .ok [some (.fin 1), none, some (.fin 3)] ∧
    Sparse.guardFires [some (.fin 1), none, some (.fin 3)] = true ∧
    Sparse.sum id [some (.number (.fin 1)), none, some (.number (.fin 3))] = .ok .nan := by
  have h1 : Sparse.parsedX id [some (.number (.fin 1)), none, some (.number (.fin 3))]
      = .ok [some (.fin 1), none, some (.fin 3)] := by
    simp [Sparse.parsedX, parsedNum, parseFloat, JSNum.isNaN]
  refine ⟨rfl, ?_, rfl, h1, ?_, ?_⟩
  · simp [Sparse.guardFires, Sparse.read, typeof]
  · simp [Sparse.guardFires, Sparse.read, typeof]
  · unfold Sparse.sum
    rw [h1]
    simp [Sparse.sumParsed, Sparse.sumLoop, typeof_number]

/-- Claim C15, amended: on an array without holes, when the parse step does not throw, every
parsed element is a Number other than NaN, so on a non-empty input neither `typeof` guard
holds, and `sum` returns `sum + correction` of the accumulator after all the iterations. -/
theorem sum_guards_unreachable (rnd : ℚ → ℚ) (x : List JSValue)
    (parsed : List (Option JSNum)) (hx : x ≠ [])
    (h : Sparse.parsedX rnd (x.map some) = .ok parsed) :
    (∀ e ∈ parsed, ∃ p, e = some p ∧ typeof (Sparse.read e) = "number" ∧ p ≠ .nan) ∧
    Sparse.guardFires parsed = false ∧
    ∃ first rest, parsed = some first :: rest.map some ∧
      Sparse.sum rnd (x.map some) =
        .ok (JSNum.add rnd (sumState rnd first rest rest.length).1
          (sumState rnd first rest rest.length).2) := by
  rw [sparse_parsedX_map_some] at h
  cases hp : parsedX rnd x with
  | error e => rw [hp] at h; cases h
  | ok ps =>
    rw [hp] at h
    injection h with h
    subst h
    obtain ⟨hmap, hnan⟩ := (parsedX_ok_iff rnd x ps).mp hp
    cases ps with
    | nil => exact absurd (List.map_eq_nil_iff.mp hmap.symm) hx
    | cons first rest =>
      refine ⟨?_, sparse_guardFires_map_some first rest, first, rest, rfl, ?_⟩
      · intro e he
        obtain ⟨p, hp2, rfl⟩ := List.mem_map.mp he
        refine ⟨p, rfl, rfl, ?_⟩
        rw [hmap] at hp2
        obtain ⟨v, hv, rfl⟩ := List.mem_map.mp hp2
        exact hnan v hv
      · rw [sparse_sum_map_some]
        exact sum_eq_sumState rnd x first rest hp

theorem sum_guards_unreachable_witness :
    [JSValue.string "1.5", JSValue.number (.fin 2)] ≠ [] ∧
    Sparse.parsedX id ([JSValue.string "1.5", JSValue.number (.fin 2)].map some)
      = .ok [some (.fin (3 / 2)), some (.fin 2)] ∧
    ((∀ e ∈ [some (JSNum.fin (3 / 2)), some (JSNum.fin 2)],
        ∃ p, e = some p ∧ typeof (Sparse.read e) = "number" ∧ p ≠ .nan) ∧
     Sparse.guardFires [some (JSNum.fin (3 / 2)), some (JSNum.fin 2)] = false ∧
     ∃ first rest, [some (JSNum.fin (3 / 2)), some (JSNum.fin 2)] = some first :: rest.map some ∧
      Sparse.sum id ([JSValue.string "1.5", JSValue.number (.fin 2)].map some) =
        .ok (JSNum.add id (sumState id first rest rest.length).1
          (sumState id first rest rest.length).2)) := by
  have h : Sparse.parsedX id ([JSValue.string "1.5", JSValue.number (.fin 2)].map some)
      = .ok [some (.fin (3 / 2)), some (.fin 2)] := by
    simp [Sparse.parsedX, parsedNum, parseFloat, parseFloatString, parseDecimal,
      parseUnsignedDecimal, isStrWhiteSpaceChar, digitsValue, parseExponent, JSNum.isNaN]
    norm_num
  exact ⟨by simp, h, sum_guards_unreachable id _ _ (by simp) h⟩

/-! ## Concatenation and order -/

theorem sum_map_fin (qs : List ℚ) :
    sum id (qs.map (fun q => JSValue.number (.fin q))) = .ok (.fin qs.sum) := by
  rw [sum_eq, any_isNaN_map_fin, map_parseFloat_map_fin]
  cases qs with
  | nil => rfl
  | cons q rest =>
    simp only [List.map_cons, reduceCtorEq, if_false, Bool.false_eq_true]
    rw [sumParsed_cons, sumLoop_exact, List.sum_cons, add_zero]

/-- With an infinite element the scan loses additivity: `sum([Infinity, 1])` is NaN, the
correction being `Infinity - Infinity + 1`. -/
theorem sum_posInf_one (rnd : ℚ → ℚ) :
    sum rnd [.number .posInf, .number (.fin 1)] = .ok .nan := by
  rw [sum_eq]
  simp [parseFloat, JSNum.isNaN, sumParsed_cons, sumLoop_cons, sumLoop, JSNum.add, JSNum.sub,
    JSNum.abs, JSNum.ge]

/-- Claim C16: under exact arithmetic `sum(x ++ y) = sum(x) + sum(y)` for all lists of
finite numbers, either possibly empty, and `sum` gives the same result on every
rearrangement `z` of the elements. -/
theorem sum_additive (x y z : List ℚ) (hperm : List.Perm z (x ++ y)) :
    (∃ a b, sum id (x.map (fun q => JSValue.number (.fin q))) = .ok a ∧
      sum id (y.map (fun q => JSValue.number (.fin q))) = .ok b ∧
      sum id ((x ++ y).map (fun q => JSValue.number (.fin q))) = .ok (JSNum.add id a b)) ∧
    sum id (z.map (fun q => JSValue.number (.fin q))) =
      sum id ((x ++ y).map (fun q => JSValue.number (.fin q))) := by
  constructor
  · refine ⟨.fin x.sum, .fin y.sum, sum_map_fin x, sum_map_fin y, ?_⟩
    rw [sum_map_fin, List.sum_append]
    rfl
  · rw [sum_map_fin, sum_map_fin, hperm.sum_eq]

theorem sum_additive_witness :
    List.Perm ([3, 1 / 2, -2, 1] : List ℚ) ([1, -2] ++ [1 / 2, 3]) ∧
    ((∃ a b, sum id (([1, -2] : List ℚ).map (fun q => JSValue.number (.fin q))) = .ok a ∧
      sum id (([1 / 2, 3] : List ℚ).map (fun q => JSValue.number (.fin q))) = .ok b ∧
      sum id ((([1, -2] : List ℚ) ++ [1 / 2, 3]).map (fun q => JSValue.number (.fin q)))
        = .ok (JSNum.add id a b)) ∧
    sum id (([3, 1 / 2, -2, 1] : List ℚ).map (fun q => JSValue.number (.fin q))) =
      sum id ((([1, -2] : List ℚ) ++ [1 / 2, 3]).map (fun q => JSValue.number (.fin q)))) := by
  have hp : List.Perm ([3, 1 / 2, -2, 1] : List ℚ) ([1, -2] ++ [1 / 2, 3]) := by
    have h1 : List.Perm ([3, 1 / 2, -2, 1] : List ℚ) ([1, -2, 1 / 2, 3] : List ℚ).reverse := by
      simp
    exact h1.trans (List.reverse_perm _)
  exact ⟨hp, sum_additive [1, -2] [1 / 2, 3] [3, 1 / 2, -2, 1] hp⟩

/-! ## `variance` under exact arithmetic -/

/-- Under exact arithmetic, with the collaborator as the spec describes it, `variance` of a
non-empty list of finite numbers is the mean of the squared deviations from the mean. -/
theorem variance_exact (qs : List ℚ) (h : qs ≠ []) :
    variance (sumNthPowerDeviations id) id (qs.map (fun q => JSValue.number (.fin q))) =
      .ok (.fin ((qs.map (fun q => (q - qs.sum / qs.length) ^ 2)).sum / qs.length)) := by
  have hlen : (qs.length : ℚ) ≠ 0 := by
    have : qs.length ≠ 0 := fun h0 => h (List.length_eq_zero.mp h0)
    exact_mod_cast this
  rw [variance_eq, any_isNaN_map_fin, map_parseFloat_map_fin, sumNthPowerDeviations_exact qs h]
  simp [h, JSNum.div, hlen]

theorem sum_eq_length_mul_of_const (qs : List ℚ) (a : ℚ) (h : ∀ q ∈ qs, q = a) :
    qs.sum = qs.length * a := by
  induction qs with
  | nil => simp
  | cons q rest ih =>
    have hq : q = a := h q (List.mem_cons_self _ _)
    have hr : ∀ r ∈ rest, r = a := fun r hr => h r (List.mem_cons_of_mem _ hr)
    rw [List.sum_cons, ih hr, hq, List.length_cons]
    push_cast
    ring

theorem sum_eq_zero_of_forall_eq_zero (ts : List ℚ) (h : ∀ t ∈ ts, t = 0) : ts.sum = 0 := by
  induction ts with
  | nil => rfl
  | cons t rest ih =>
    rw [List.sum_cons, h t (List.mem_cons_self _ _),
      ih (fun r hr => h r (List.mem_cons_of_mem _ hr)), add_zero]

theorem forall_eq_zero_of_sum_eq_zero (ts : List ℚ) (hnn : ∀ t ∈ ts, 0 ≤ t)
    (hsum : ts.sum = 0) : ∀ t ∈ ts, t = 0 := by
  induction ts with
  | nil => intro t ht; cases ht
  | cons u rest ih =>
    have hu : 0 ≤ u := hnn u (List.mem_cons_self _ _)
    have hr : ∀ r ∈ rest, 0 ≤ r := fun r hr => hnn r (List.mem_cons_of_mem _ hr)
    have hrs : 0 ≤ rest.sum := List.sum_nonneg hr
    rw [List.sum_cons] at hsum
    have hu0 : u = 0 := by linarith
    have hr0 : rest.sum = 0 := by linarith
    intro t ht
    rcases List.mem_cons.mp ht with rfl | ht
    · exact hu0
    · exact ih hr hr0 t ht

/-- Claim C11: under exact arithmetic `variance` of a non-empty list whose elements are all
the same number is 0, and so is `variance([a])` for every number `a`. -/
theorem variance_constant (qs : List ℚ) (a : ℚ) (hne : qs ≠ []) (hconst : ∀ q ∈ qs, q = a) :
    variance (sumNthPowerDeviations id) id (qs.map (fun q => JSValue.number (.fin q)))
      = .ok (.fin 0) ∧
    variance (sumNthPowerDeviations id) id [.number (.fin a)] = .ok (.fin 0) := by
  have key : ∀ rs : List ℚ, rs ≠ [] → (∀ q ∈ rs, q = a) →
      variance (sumNthPowerDeviations id) id (rs.map (fun q => JSValue.number (.fin q)))
        = .ok (.fin 0) := by
    intro rs hrs hc
    have hlen : (rs.length : ℚ) ≠ 0 := by
      have : rs.length ≠ 0 := fun h0 => hrs (List.length_eq_zero.mp h0)
      exact_mod_cast this
    have hmean : rs.sum / rs.length = a := by
      rw [sum_eq_length_mul_of_const rs a hc]
      field_simp
    rw [variance_exact rs hrs, hmean]
    have hz : (rs.map (fun q => (q - a) ^ 2)).sum = 0 := by
      apply sum_eq_zero_of_forall_eq_zero
      intro t ht
      obtain ⟨q, hq, rfl⟩ := List.mem_map.mp ht
      rw [hc q hq]
      ring
    rw [hz, zero_div]
  refine ⟨key qs hne hconst, ?_⟩
  have h1 := key [a] (by simp) (by simp)
  simpa using h1

theorem variance_constant_witness :
    ([1, 1, 1, 1] : List ℚ) ≠ [] ∧ (∀ q ∈ ([1, 1, 1, 1] : List ℚ), q = 1) ∧
    (variance (sumNthPowerDeviations id) id
        (([1, 1, 1, 1] : List ℚ).map (fun q => JSValue.number (.fin q))) = .ok (.fin 0) ∧
     variance (sumNthPowerDeviations id) id [.number (.fin 1)] = .ok (.fin 0)) :=
  ⟨by simp, by simp, variance_constant [1, 1, 1, 1] 1 (by simp) (by simp)⟩

/-- Claim C12: under exact arithmetic `variance` of a non-empty list of numbers returns a
value greater than or equal to zero, and the value is zero only when all the elements are
identical. -/
theorem variance_nonneg (qs : List ℚ) (hne : qs ≠ []) :
    ∃ v : ℚ,
      variance (sumNthPowerDeviations id) id (qs.map (fun q => JSValue.number (.fin q)))
        = .ok (.fin v) ∧
      0 ≤ v ∧ (v = 0 → ∀ a ∈ qs, ∀ b ∈ qs, a = b) := by
  have hlen : (0 : ℚ) < qs.length := by
    have : qs.length ≠ 0 := fun h0 => hne (List.length_eq_zero.mp h0)
    exact_mod_cast Nat.pos_of_ne_zero this
  have hnn : ∀ t ∈ qs.map (fun q => (q - qs.sum / qs.length) ^ 2), 0 ≤ t := by
    intro t ht
    obtain ⟨q, _, rfl⟩ := List.mem_map.mp ht
    exact sq_nonneg _
  refine ⟨_, variance_exact qs hne, div_nonneg (List.sum_nonneg hnn) hlen.le, ?_⟩
  intro hv
  have hsum : (qs.map (fun q => (q - qs.sum / qs.length) ^ 2)).sum = 0 := by
    rcases div_eq_zero_iff.mp hv with h0 | h0
    · exact h0
    · exact absurd h0 hlen.ne.symm
  have hall := forall_eq_zero_of_sum_eq_zero _ hnn hsum
  have hmean : ∀ q ∈ qs, q = qs.sum / qs.length := by
    intro q hq
    have h2 : (q - qs.sum / qs.length) ^ 2 = 0 := hall _ (List.mem_map.mpr ⟨q, hq, rfl⟩)
    have h3 : q - qs.sum / qs.length = 0 := pow_eq_zero_iff (two_ne_zero) |>.mp h2
    linarith
  intro a ha b hb
  rw [hmean a ha, hmean b hb]

theorem variance_nonneg_witness :
    ([1, 2, 3, 4, 5, 6] : List ℚ) ≠ [] ∧
    ∃ v : ℚ,
      variance (sumNthPowerDeviations id) id
        (([1, 2, 3, 4, 5, 6] : List ℚ).map (fun q => JSValue.number (.fin q)))
        = .ok (.fin v) ∧
      0 ≤ v ∧ (v = 0 → ∀ a ∈ ([1, 2, 3, 4, 5, 6] : List ℚ), ∀ b ∈ ([1, 2, 3, 4, 5, 6] : List ℚ),
        a = b) :=
  ⟨by simp, variance_nonneg [1, 2, 3, 4, 5, 6] (by simp)⟩

theorem sum_map_add_const (qs : List ℚ) (c : ℚ) :
    (qs.map (fun q => q + c)).sum = qs.sum + qs.length * c := by
  induction qs with
  | nil => simp
  | cons q rest ih =>
    rw [List.map_cons, List.sum_cons, ih, List.sum_cons, List.length_cons]
    push_cast
    ring

/-- Claim C17: under exact arithmetic `variance` of a non-empty list of numbers does not
change when the same number `c` is added to every element. -/
theorem variance_translate (qs : List ℚ) (c : ℚ) (hne : qs ≠ []) :
    variance (sumNthPowerDeviations id) id
        ((qs.map (fun q => q + c)).map (fun q => JSValue.number (.fin q))) =
      variance (sumNthPowerDeviations id) id (qs.map (fun q => JSValue.number (.fin q))) := by
  have hlen : (qs.length : ℚ) ≠ 0 := by
    have : qs.length ≠ 0 := fun h0 => hne (List.length_eq_zero.mp h0)
    exact_mod_cast this
  have hne2 : qs.map (fun q => q + c) ≠ [] := by
    intro h0
    exact hne (List.map_eq_nil_iff.mp h0)
  rw [variance_exact _ hne2, variance_exact qs hne, sum_map_add_const, List.length_map,
    List.map_map]
  have hterms : qs.map ((fun q => (q - (qs.sum + qs.length * c) / qs.length) ^ 2) ∘
      fun q => q + c) = qs.map (fun q => (q - qs.sum / qs.length) ^ 2) := by
    apply List.map_congr_left
    intro q _
    simp only [Function.comp_apply]
    congr 1
    field_simp
    ring
  rw [hterms]

theorem variance_translate_witness :
    ([1, 2, 4] : List ℚ) ≠ [] ∧
    variance (sumNthPowerDeviations id) id
        ((([1, 2, 4] : List ℚ).map (fun q => q + 10)).map (fun q => JSValue.number (.fin q))) =
      variance (sumNthPowerDeviations id) id
        (([1, 2, 4] : List ℚ).map (fun q => JSValue.number (.fin q))) :=
  ⟨by simp, variance_translate [1, 2, 4] 10 (by simp)⟩

/-! ## Accuracy against naive summation -/

theorem sumStep_small_of_zero (rnd : ℚ → ℚ) (M : ℕ) (hexact : ∀ n : ℕ, n ≤ M → rnd n = n)
    (C a : ℕ) (hC : C ≤ M) (ha : a ≤ M) :
    sumStep rnd (.fin 0, .fin C) (.fin a) = (.fin a, .fin C) := by
  have h0 : rnd 0 = 0 := by simpa using hexact 0 (Nat.zero_le _)
  have hra : rnd (a : ℚ) = a := hexact a ha
  have hrC : rnd (C : ℚ) = C := hexact C hC
  unfold sumStep
  simp only [JSNum.add, JSNum.sub, zero_add, hra, sub_self, h0, add_zero, hrC]
  split
  · rename_i h
    simp only [JSNum.abs, JSNum.ge, abs_zero, decide_eq_true_eq] at h
    have ha0 : (a : ℚ) = 0 := abs_eq_zero.mp (le_antisymm h (abs_nonneg _))
    simp [ha0, h0, hrC]
  · rfl

theorem sumStep_large_of_small (rnd : ℚ → ℚ) (B : ℚ) (M : ℕ)
    (hexact : ∀ n : ℕ, n ≤ M → rnd n = n) (habsorb : ∀ n : ℕ, n ≤ M → rnd (n + B) = B)
    (hlarge : (M : ℚ) < B) (C a : ℕ) (hCa : C + a ≤ M) :
    sumStep rnd (.fin a, .fin C) (.fin B) = (.fin B, .fin ((C + a : ℕ) : ℚ)) := by
  have h0 : rnd 0 = 0 := by simpa using hexact 0 (Nat.zero_le _)
  have ha : a ≤ M := le_trans (Nat.le_add_left _ _) hCa
  have hra : rnd (a : ℚ) = a := hexact a ha
  have hab : rnd ((a : ℚ) + B) = B := habsorb a ha
  have hrCa : rnd ((C : ℚ) + a) = (C : ℚ) + a := by
    have := hexact (C + a) hCa
    push_cast at this
    exact this
  have haM : (a : ℚ) ≤ M := by exact_mod_cast ha
  have ha0 : (0 : ℚ) ≤ a := Nat.cast_nonneg a
  have hlt : ¬ |B| ≤ |(a : ℚ)| := by
    rw [abs_of_nonneg ha0, abs_of_pos (show 0 < B by linarith)]
    linarith
  unfold sumStep
  simp only [JSNum.add, JSNum.sub, JSNum.abs, JSNum.ge, hab, sub_self, h0, zero_add, hra,
    hrCa, hlt, decide_False, Bool.false_eq_true, if_false]
  push_cast
  rfl

theorem sumStep_small_of_large (rnd : ℚ → ℚ) (B : ℚ) (M : ℕ)
    (hexact : ∀ n : ℕ, n ≤ M → rnd n = n) (habsorb : ∀ n : ℕ, n ≤ M → rnd (n + B) = B)
    (hlarge : (M : ℚ) < B) (C b : ℕ) (hCb : C + b ≤ M) :
    sumStep rnd (.fin B, .fin C) (.fin b) = (.fin B, .fin ((C + b : ℕ) : ℚ)) := by
  have h0 : rnd 0 = 0 := by simpa using hexact 0 (Nat.zero_le _)
  have hb : b ≤ M := le_trans (Nat.le_add_left _ _) hCb
  have hrb : rnd (b : ℚ) = b := hexact b hb
  have hab : rnd (B + (b : ℚ)) = B := by rw [add_comm]; exact habsorb b hb
  have hrCb : rnd ((C : ℚ) + b) = (C : ℚ) + b := by
    have := hexact (C + b) hCb
    push_cast at this
    exact this
  have hbM : (b : ℚ) ≤ M := by exact_mod_cast hb
  have hb0 : (0 : ℚ) ≤ b := Nat.cast_nonneg b
  have hle : |(b : ℚ)| ≤ |B| := by
    rw [abs_of_nonneg hb0, abs_of_pos (show 0 < B by linarith)]
    linarith
  unfold sumStep
  simp only [JSNum.add, JSNum.sub, JSNum.abs, JSNum.ge, hab, sub_self, h0, zero_add, hrb,
    hrCb, hle, decide_True, if_true]
  push_cast
  rfl

theorem sumStep_neg_large (rnd : ℚ → ℚ) (B : ℚ) (M : ℕ)
    (hexact : ∀ n : ℕ, n ≤ M → rnd n = n) (hB : rnd B = B) (C : ℕ) (hC : C ≤ M) :
    sumStep rnd (.fin B, .fin C) (.fin (-B)) = (.fin 0, .fin C) := by
  have h0 : rnd 0 = 0 := by simpa using hexact 0 (Nat.zero_le _)
  have hrC : rnd (C : ℚ) = C := hexact C hC
  unfold sumStep
  simp only [JSNum.add, JSNum.sub, JSNum.abs, JSNum.ge, add_neg_cancel, h0, sub_zero, hB,
    abs_neg, le_refl, decide_True, if_true, add_zero, hrC]

/-- The scan of an alternating sequence from the accumulator `(0, C)`: the large values
cancel in `sum` and every small value is collected, exactly, in `correction`. -/
theorem foldl_sumStep_alternating (rnd : ℚ → ℚ) (B : ℚ) (M : ℕ)
    (hexact : ∀ n : ℕ, n ≤ M → rnd n = n) (hB : rnd B = B)
    (habsorb : ∀ n : ℕ, n ≤ M → rnd (n + B) = B) (hlarge : (M : ℚ) < B)
    (smalls : List (ℕ × ℕ)) (C : ℕ)
    (hsum : C + (smalls.map (fun ab => ab.1 + ab.2)).sum ≤ M) :
    ((alternating B smalls).map JSNum.fin).foldl (sumStep rnd) (.fin 0, .fin C) =
      (.fin 0, .fin ((C + (smalls.map (fun ab => ab.1 + ab.2)).sum : ℕ) : ℚ)) := by
  induction smalls generalizing C with
  | nil => simp [alternating]
  | cons ab rest ih =>
    simp only [List.map_cons, List.sum_cons] at hsum
    have h1 : C ≤ M := by omega
    have h2 : ab.1 ≤ M := by omega
    have h3 : C + ab.1 ≤ M := by omega
    have h4 : C + ab.1 + ab.2 ≤ M := by omega
    have h5 : C + ab.1 + ab.2 + (rest.map (fun ab => ab.1 + ab.2)).sum ≤ M := by omega
    simp only [alternating, List.map_cons, List.foldl_cons]
    rw [sumStep_small_of_zero rnd M hexact C ab.1 h1 h2,
      sumStep_large_of_small rnd B M hexact habsorb hlarge C ab.1 h3,
      sumStep_small_of_large rnd B M hexact habsorb hlarge (C + ab.1) ab.2 h4,
      sumStep_neg_large rnd B M hexact hB (C + ab.1 + ab.2) h4,
      ih (C + ab.1 + ab.2) h5]
    simp only [List.map_cons, List.sum_cons]
    congr 3
    omega

/-- Naive summation of an alternating sequence: every small value is absorbed by the large
one and lost when the large one cancels. -/
theorem foldl_add_alternating (rnd : ℚ → ℚ) (B : ℚ) (M : ℕ)
    (hexact : ∀ n : ℕ, n ≤ M → rnd n = n) (habsorb : ∀ n : ℕ, n ≤ M → rnd (n + B) = B)
    (smalls : List (ℕ × ℕ)) (hsmall : ∀ ab ∈ smalls, ab.1 ≤ M ∧ ab.2 ≤ M) :
    ((alternating B smalls).map JSNum.fin).foldl (JSNum.add rnd) (.fin 0) = .fin 0 := by
  have h0 : rnd 0 = 0 := by simpa using hexact 0 (Nat.zero_le _)
  induction smalls with
  | nil => simp [alternating]
  | cons ab rest ih =>
    obtain ⟨ha, hb⟩ := hsmall ab (List.mem_cons_self _ _)
    have hra : rnd (ab.1 : ℚ) = ab.1 := hexact ab.1 ha
    have hab : rnd ((ab.1 : ℚ) + B) = B := habsorb ab.1 ha
    have hbb : rnd (B + (ab.2 : ℚ)) = B := by rw [add_comm]; exact habsorb ab.2 hb
    simp only [alternating, List.map_cons, List.foldl_cons, JSNum.add, zero_add, hra, hab, hbb,
      add_neg_cancel, h0]
    exact ih (fun ab hab => hsmall ab (List.mem_cons_of_mem _ hab))

theorem sum_alternating (B : ℚ) (smalls : List (ℕ × ℕ)) :
    (alternating B smalls).sum = (((smalls.map (fun ab => ab.1 + ab.2)).sum : ℕ) : ℚ) := by
  induction smalls with
  | nil => simp [alternating]
  | cons ab rest ih =>
    simp only [alternating, List.sum_cons, List.map_cons, ih]
    push_cast
    ring

theorem le_sum_of_mem_pairs (smalls : List (ℕ × ℕ)) (ab : ℕ × ℕ) (h : ab ∈ smalls) :
    ab.1 + ab.2 ≤ (smalls.map (fun ab => ab.1 + ab.2)).sum := by
  induction smalls with
  | nil => cases h
  | cons cd rest ih =>
    simp only [List.map_cons, List.sum_cons]
    rcases List.mem_cons.mp h with rfl | h
    · omega
    · have := ih h
      omega

/-! ### The binary64 rounding -/

theorem roundHalfEven_intCast (z : ℤ) : roundHalfEven (z : ℚ) = z := by
  unfold roundHalfEven
  simp

/-- The rounding of a positive value whose binary exponent is `e`. -/
theorem roundBinary64_of_bounds (q : ℚ) (e : ℤ) (h1 : (2 : ℚ) ^ e ≤ q)
    (h2 : q < (2 : ℚ) ^ (e + 1)) :
    roundBinary64 q = (roundHalfEven (q / 2 ^ (e - 52)) : ℚ) * 2 ^ (e - 52) := by
  have hq : 0 < q := lt_of_lt_of_le (zpow_pos (by norm_num) e) h1
  have hlog : Int.log 2 q = e := by
    apply le_antisymm
    · have := (Int.lt_zpow_iff_log_lt (b := 2) (by norm_num) hq (x := e + 1)).mp
        (by simpa using h2)
      omega
    · exact (Int.zpow_le_iff_le_log (b := 2) (by norm_num) hq).mp (by simpa using h1)
  unfold roundBinary64
  rw [abs_of_pos hq, hlog]
  simp [hq.ne.symm, hq]

/-- Every natural number below `2 ^ 53` is a binary64 number. -/
theorem roundBinary64_natCast (n : ℕ) (h : n < 2 ^ 53) : roundBinary64 (n : ℚ) = n := by
  rcases Nat.eq_zero_or_pos n with rfl | hn
  · simp [roundBinary64]
  · have hq : (0 : ℚ) < n := by exact_mod_cast hn
    have hone : (1 : ℚ) ≤ n := by exact_mod_cast hn
    have hlt : (n : ℚ) < 2 ^ (53 : ℤ) := by
      have : (n : ℚ) < 2 ^ (53 : ℕ) := by exact_mod_cast h
      rw [← zpow_natCast] at this
      exact this
    have hlo : 0 ≤ Int.log 2 (n : ℚ) :=
      (Int.zpow_le_iff_le_log (b := 2) (by norm_num) hq).mp (by simpa using hone)
    have hhi : Int.log 2 (n : ℚ) < 53 :=
      (Int.lt_zpow_iff_log_lt (b := 2) (by norm_num) hq).mp (by simpa using hlt)
    obtain ⟨k, hk⟩ : ∃ k : ℕ, Int.log 2 (n : ℚ) - 52 = -(k : ℤ) :=
      ⟨(52 - Int.log 2 (n : ℚ)).toNat, by omega⟩
    have hcast : (n : ℚ) * 2 ^ k = ((n * 2 ^ k : ℤ) : ℚ) := by push_cast; ring
    unfold roundBinary64
    rw [abs_of_pos hq, hk, zpow_neg, zpow_natCast, div_inv_eq_mul, hcast, roundHalfEven_intCast]
    simp only [hq.ne.symm, hq, if_false, if_true]
    push_cast
    field_simp

/-- A natural number up to `2 ^ 46` added to `2 ^ 100` is absorbed: the sum rounds to
`2 ^ 100`. -/
theorem roundBinary64_absorb (n : ℕ) (h : n ≤ 2 ^ 46) :
    roundBinary64 ((n : ℚ) + 2 ^ 100) = 2 ^ 100 := by
  have hn0 : (0 : ℚ) ≤ n := Nat.cast_nonneg n
  have hn : (n : ℚ) ≤ 70368744177664 := by
    have h46 : (n : ℚ) ≤ 2 ^ 46 := by exact_mod_cast h
    linarith [show (2 : ℚ) ^ 46 = 70368744177664 by norm_num]
  have h1 : (2 : ℚ) ^ (100 : ℤ) ≤ (n : ℚ) + 2 ^ 100 := by
    norm_num
  have h2 : (n : ℚ) + 2 ^ 100 < (2 : ℚ) ^ ((100 : ℤ) + 1) := by
    norm_num
    linarith
  rw [roundBinary64_of_bounds _ 100 h1 h2]
  have hfloor : ⌊((n : ℚ) + 2 ^ 100) / 2 ^ ((100 : ℤ) - 52)⌋ = 2 ^ 52 := by
    rw [Int.floor_eq_iff]
    refine ⟨?_, ?_⟩ <;> norm_num <;> linarith
  have hround : roundHalfEven (((n : ℚ) + 2 ^ 100) / 2 ^ ((100 : ℤ) - 52)) = 2 ^ 52 := by
    unfold roundHalfEven
    rw [hfloor]
    have : ((n : ℚ) + 2 ^ 100) / 2 ^ ((100 : ℤ) - 52) - ((2 ^ 52 : ℤ) : ℚ) < 1 / 2 := by
      norm_num
      linarith
    simp only [this, if_true]
  rw [hround]
  norm_num

/-- Claim C13: for a sequence that alternates small values with a large value `B` and its
opposite, under every rounding that keeps the small values and their sums exact and absorbs
them into `B` (IEEE-754 binary64 is one), naive summation loses every small value while
`sum` returns the exact sum: the error of `sum` is strictly smaller than the naive one. -/
theorem sum_error_lt_naive (rnd : ℚ → ℚ) (B : ℚ) (M : ℕ) (smalls : List (ℕ × ℕ))
    (hexact : ∀ n : ℕ, n ≤ M → rnd n = n) (hB : rnd B = B)
    (habsorb : ∀ n : ℕ, n ≤ M → rnd (n + B) = B) (hlarge : (M : ℚ) < B)
    (hsum : (smalls.map (fun ab => ab.1 + ab.2)).sum ≤ M)
    (hpos : 0 < (smalls.map (fun ab => ab.1 + ab.2)).sum) :
    ∃ r n : ℚ,
      sum rnd ((alternating B smalls).map (fun q => JSValue.number (.fin q))) = .ok (.fin r) ∧
      naiveSum rnd ((alternating B smalls).map JSNum.fin) = .fin n ∧
      |r - (alternating B smalls).sum| < |n - (alternating B smalls).sum| ∧
      r = (alternating B smalls).sum ∧ n = 0 := by
  have h0 : rnd 0 = 0 := by simpa using hexact 0 (Nat.zero_le _)
  have htot : rnd (((smalls.map (fun ab => ab.1 + ab.2)).sum : ℕ) : ℚ)
      = (((smalls.map (fun ab => ab.1 + ab.2)).sum : ℕ) : ℚ) := hexact _ hsum
  have hsmall : ∀ ab ∈ smalls, ab.1 ≤ M ∧ ab.2 ≤ M := by
    intro ab hab
    have := le_sum_of_mem_pairs smalls ab hab
    omega
  have hscan : sum rnd ((alternating B smalls).map (fun q => JSValue.number (.fin q)))
      = .ok (.fin (((smalls.map (fun ab => ab.1 + ab.2)).sum : ℕ) : ℚ)) := by
    rw [sum_eq, any_isNaN_map_fin, map_parseFloat_map_fin]
    cases smalls with
    | nil => simp at hpos
    | cons ab rest =>
      have hfold := foldl_sumStep_alternating rnd B M hexact hB habsorb hlarge (ab :: rest) 0
        (by simpa using hsum)
      have hfirst := sumStep_small_of_zero rnd M hexact 0 ab.1 (Nat.zero_le _)
        (hsmall ab (List.mem_cons_self _ _)).1
      simp only [alternating, List.map_cons, List.foldl_cons, Nat.cast_zero, zero_add]
        at hfold hfirst
      rw [hfirst] at hfold
      simp only [alternating, List.map_cons, reduceCtorEq, if_false, Bool.false_eq_true]
      rw [sumParsed_cons, sumLoop_eq_foldl]
      simp only [List.foldl_cons, hfold, JSNum.add, zero_add]
      simp only [List.map_cons] at htot
      rw [htot]
  have hnaive : naiveSum rnd ((alternating B smalls).map JSNum.fin) = .fin 0 :=
    foldl_add_alternating rnd B M hexact habsorb smalls hsmall
  refine ⟨_, 0, hscan, hnaive, ?_, (sum_alternating B smalls).symm, rfl⟩
  rw [sum_alternating, sub_self, abs_zero, zero_sub, abs_neg]
  have : (0 : ℚ) < (((smalls.map (fun ab => ab.1 + ab.2)).sum : ℕ) : ℚ) := by
    exact_mod_cast hpos
  exact lt_of_lt_of_le this (le_abs_self _)

theorem sum_error_lt_naive_witness :
    (∀ n : ℕ, n ≤ 2 ^ 46 → roundBinary64 n = n) ∧
    roundBinary64 (2 ^ 100) = 2 ^ 100 ∧
    (∀ n : ℕ, n ≤ 2 ^ 46 → roundBinary64 (n + 2 ^ 100) = 2 ^ 100) ∧
    (((2 ^ 46 : ℕ) : ℚ) < 2 ^ 100) ∧
    (([(1, 1), (3, 2)] : List (ℕ × ℕ)).map (fun ab => ab.1 + ab.2)).sum ≤ 2 ^ 46 ∧
    0 < (([(1, 1), (3, 2)] : List (ℕ × ℕ)).map (fun ab => ab.1 + ab.2)).sum ∧
    alternating (2 ^ 100) [(1, 1), (3, 2)] =
      [1, 2 ^ 100, 1, -2 ^ 100, 3, 2 ^ 100, 2, -2 ^ 100] ∧
    ∃ r n : ℚ,
      sum roundBinary64 ((alternating (2 ^ 100) [(1, 1), (3, 2)]).map
        (fun q => JSValue.number (.fin q))) = .ok (.fin r) ∧
      naiveSum roundBinary64 ((alternating (2 ^ 100) [(1, 1), (3, 2)]).map JSNum.fin)
        = .fin n ∧
      |r - (alternating (2 ^ 100) [(1, 1), (3, 2)]).sum| <
        |n - (alternating (2 ^ 100) [(1, 1), (3, 2)]).sum| ∧
      r = (alternating (2 ^ 100) [(1, 1), (3, 2)]).sum ∧ n = 0 := by
  have hexact : ∀ n : ℕ, n ≤ 2 ^ 46 → roundBinary64 n = n := fun n hn =>
    roundBinary64_natCast n (lt_of_le_of_lt hn (by norm_num))
  have hB : roundBinary64 (2 ^ 100) = 2 ^ 100 := by
    have := roundBinary64_absorb 0 (Nat.zero_le _)
    simpa using this
  have hlarge : ((2 ^ 46 : ℕ) : ℚ) < 2 ^ 100 := by norm_num
  have hsum : (([(1, 1), (3, 2)] : List (ℕ × ℕ)).map (fun ab => ab.1 + ab.2)).sum ≤ 2 ^ 46 := by
    norm_num
  have hpos : 0 < (([(1, 1), (3, 2)] : List (ℕ × ℕ)).map (fun ab => ab.1 + ab.2)).sum := by
    norm_num
  exact ⟨hexact, hB, roundBinary64_absorb, hlarge, hsum, hpos, by simp [alternating],
    sum_error_lt_naive roundBinary64 (2 ^ 100) (2 ^ 46) [(1, 1), (3, 2)] hexact hB
      roundBinary64_absorb hlarge hsum hpos⟩

end SimpleStatistics
